import Mathlib

/-!
Verification of `feilian/etree_tools.py`: a shallow embedding of the tree
data model (lxml elements as produced by html5lib), the sanitizer
(`clean_html`), the token-budget pruner (`prune_by_tokens`), the address
deduplicator (`deduplicate_to_prune`), the inclusion pruner
(`prune_by_xpath` / `extraction_based_pruning`), the traversal entry point
(`traverse`) and the control-character pre-pass
(`remove_control_characters`), together with proofs and refutations of the
specification's claims about them.

Conventions of the embedding:
* lxml element nodes are `Elem`; an lxml comment node is an `Elem` whose
  `tag` is `NodeTag.comment` (in lxml a comment is an `_Element` whose
  `tag` is the `Comment` factory function, not a string).
* `text` and `tail` model lxml's `.text` / `.tail` (`none` = Python
  `None`); `attribs` models `.attrib` as an association list with unique
  keys, in document order.
* Python exceptions are modelled with `Except String`; in-place mutation
  is modelled functionally (a function returns the post-state of the node
  it mutates).
* The tokenizer parameter `len(tokenizer.encode(s).ids)` is modelled as an
  arbitrary pure function `tok : String → Nat`.
-/

inductive NodeTag where
  | el (name : String)
  | comment
  deriving DecidableEq

inductive Elem where
  | mk (tag : NodeTag) (attribs : List (String × String)) (text : Option String)
       (children : List Elem) (tail : Option String)

mutual
def Elem.deq : (a b : Elem) → Decidable (a = b)
  | .mk t1 a1 x1 c1 l1, .mk t2 a2 x2 c2 l2 =>
    match decEq t1 t2, decEq a1 a2, decEq x1 x2, Elem.deqList c1 c2, decEq l1 l2 with
    | isTrue h1, isTrue h2, isTrue h3, isTrue h4, isTrue h5 => isTrue (by rw [h1, h2, h3, h4, h5])
    | isFalse h1, _, _, _, _ => isFalse (by simp [h1])
    | _, isFalse h2, _, _, _ => isFalse (by simp [h2])
    | _, _, isFalse h3, _, _ => isFalse (by simp [h3])
    | _, _, _, isFalse h4, _ => isFalse (by simp [h4])
    | _, _, _, _, isFalse h5 => isFalse (by simp [h5])
def Elem.deqList : (a b : List Elem) → Decidable (a = b)
  | [], [] => isTrue rfl
  | [], _ :: _ => isFalse (by simp)
  | _ :: _, [] => isFalse (by simp)
  | a :: as, b :: bs =>
    match Elem.deq a b, Elem.deqList as bs with
    | isTrue h1, isTrue h2 => isTrue (by rw [h1, h2])
    | isFalse h1, _ => isFalse (by simp [h1])
    | _, isFalse h2 => isFalse (by simp [h2])
end

instance : DecidableEq Elem := Elem.deq

def Elem.tag : Elem → NodeTag
  | .mk t _ _ _ _ => t

def Elem.attribs : Elem → List (String × String)
  | .mk _ a _ _ _ => a

def Elem.text : Elem → Option String
  | .mk _ _ x _ _ => x

def Elem.children : Elem → List Elem
  | .mk _ _ _ cs _ => cs

def Elem.tail : Elem → Option String
  | .mk _ _ _ _ tl => tl

/-- Replace the children list of an element, keeping every other field
(the functional counterpart of detaching / re-attaching children on a
mutable lxml node). -/
def Elem.withChildren : Elem → List Elem → Elem
  | .mk t a x _ tl, cs => .mk t a x cs tl

/-- `remove_children(ele)`: detach every child, return the mutated node. -/
def remove_children (e : Elem) : Elem :=
  Elem.withChildren e []

/-- Association-list lookup on an attribute dict (`key in ele.attrib` /
`ele.attrib[key]`); lxml attribute keys are unique. -/
def attrGet (a : List (String × String)) (k : String) : Option String :=
  (a.find? (fun p => p.1 == k)).map (fun p => p.2)

/-- `del ele.attrib[key]` (keys are unique, so filtering is deletion). -/
def attrDel (a : List (String × String)) (k : String) : List (String × String) :=
  a.filter (fun p => ¬ p.1 == k)

/-- Python's `value.startswith(pre)` on strings. -/
def startswith (s pre : String) : Bool :=
  pre.toList.isPrefixOf s.toList

/-- XML text-node escaping used by `lxml.etree.tostring`. -/
def escape_text (s : String) : String :=
  String.mk (s.toList.flatMap (fun c =>
    if c = '&' then "&amp;".toList
    else if c = '<' then "&lt;".toList
    else if c = '>' then "&gt;".toList
    else [c]))

/-- XML attribute-value escaping used by `lxml.etree.tostring`. -/
def escape_attr (s : String) : String :=
  String.mk (s.toList.flatMap (fun c =>
    if c = '&' then "&amp;".toList
    else if c = '<' then "&lt;".toList
    else if c = '>' then "&gt;".toList
    else if c = '"' then "&quot;".toList
    else [c]))

mutual
/-- `to_string(ele)` = `etree.tostring(ele, encoding="utf-8").decode("utf-8")`
(compact form, `pretty_print=False`): XML serialization of an element —
attributes in order, `<tag .../>` self-closing form exactly when the
element has no text and no children, comments as `<!--text-->`, and the
node's tail text appended (lxml serializes the tail by default). -/
def to_string (e : Elem) : String :=
  match e with
  | .mk (.el name) attribs text cs tail =>
      "<" ++ name ++
      String.join (attribs.map (fun p => " " ++ p.1 ++ "=\"" ++ escape_attr p.2 ++ "\"")) ++
      (if text.isNone && cs.isEmpty then "/>"
       else ">" ++ escape_text (text.getD "") ++ serializeList cs ++ "</" ++ name ++ ">") ++
      escape_text (tail.getD "")
  | .mk .comment _ text _ tail =>
      "<!--" ++ (text.getD "") ++ "-->" ++ escape_text (tail.getD "")
termination_by sizeOf e
def serializeList : List Elem → String
  | [] => ""
  | c :: rest => to_string c ++ serializeList rest
termination_by l => sizeOf l
end

/-- Modelled from the spec: the tag denylist `INTERACTIVE_ELEMENTS` is
imported by the source from `feilian.html_constants`, a module of this
repository that is not available; per the spec it holds "scripts, forms,
inputs, buttons, embeds, and similarly interactive or non-content-bearing
tags". -/
def INTERACTIVE_ELEMENTS : List String :=
  ["script", "noscript", "form", "input", "button", "select", "option",
   "textarea", "embed", "iframe", "object"]

/-- ASCII whitespace for the regex class `\s` (the source strings are
ASCII in every context where this matcher is applied). -/
def isSpaceCh (c : Char) : Bool :=
  c == ' ' || c == '\t' || c == '\n' || c == '\r' || c == '\x0b' || c == '\x0c'

/-- Does `l` begin with a match of the regex `display\s*:\s*none`? -/
def startsDisplayNone (l : List Char) : Bool :=
  if "display".toList.isPrefixOf l then
    match (l.drop 7).dropWhile isSpaceCh with
    | ':' :: r2 => "none".toList.isPrefixOf (r2.dropWhile isSpaceCh)
    | _ => false
  else false

/-- `re.search(r"display\s*:\s*none", s)` as a Boolean: some suffix of `s`
begins with a match. -/
def displayNoneSearch (s : String) : Bool :=
  s.toList.tails.any startsDisplayNone

/-- Branches 1–3 of `_clean_html`: should this node be detached from its
parent?  True for comment nodes (`ele.tag.__name__ == "Comment"`) and for
tags in the interactive-element denylist.  (The `not isinstance(ele,
etree._Element)` branch is unreachable on lxml trees, where comments are
`_Element` subclasses; it has no counterpart in the model.) -/
def cleanRemoves (e : Elem) : Bool :=
  match e.tag with
  | .comment => true
  | .el n => INTERACTIVE_ELEMENTS.contains n

/-- Branches 4–6 of `_clean_html`, applied to a node that is kept: the
`display:none` clearing rule (`ele.clear()` resets children, attributes,
text and tail; then `ele.text = ""`), else — only when the attribute dict
is non-empty — strip every attribute but `class` and `id`, then drop an
`href` starting with `javascript:` and an `img`'s `src` (both checks are
performed on the already-filtered dict, as in the source). -/
def cleanRules (e : Elem) : Elem :=
  if (attrGet e.attribs "style").any (fun v => displayNoneSearch v) then
    Elem.mk e.tag [] (some "") [] none
  else if e.attribs.isEmpty then e
  else
    let a1 := e.attribs.filter (fun p => p.1 == "class" || p.1 == "id")
    let a2 := if (attrGet a1 "href").any (fun v => startswith v "javascript:") then
                attrDel a1 "href"
              else a1
    let a3 := if e.tag == NodeTag.el "img" && (attrGet a2 "src").isSome then
                attrDel a2 "src"
              else a2
    Elem.mk e.tag a3 e.text e.children e.tail

mutual
/-- `clean_html(ele)`: `post_order_traversal(ele, _clean_html)`.  Children
are sanitized first; a child for which `_clean_html` takes a removal
branch is detached from the parent's child list; `_clean_html` on the
node itself takes the removal branch as a no-op when the node has no
parent (so the traversal root is never removed and, on a removal branch,
is returned with only its children processed, exactly as in the source). -/
def clean_html (e : Elem) : Elem :=
  let r := Elem.withChildren e (cleanList e.children)
  if cleanRemoves r then r else cleanRules r
termination_by sizeOf e
decreasing_by
  cases e
  simp [Elem.children]
  omega
def cleanList : List Elem → List Elem
  | [] => []
  | c :: rest =>
    let c2 := clean_html c
    if cleanRemoves c2 then cleanList rest else c2 :: cleanList rest
termination_by l => sizeOf l
end

mutual
/-- `prune_by_tokens` with `reversed=False` (the only executable path of
the function, see `prune_by_tokens` below): if the serialization fits the
budget, return unchanged; otherwise detach all children, compute
`required_tokens = max_tokens - self_tokens`, greedily re-attach children
in document order until one no longer fits, keep that boundary child too
and recurse into it with the leftover budget. -/
def pruneFwd (tok : String → Nat) (e : Elem) (max_tokens : Int) : Elem :=
  if (tok (to_string e) : Int) ≤ max_tokens then e
  else
    match e with
    | .mk t a x cs tl =>
      let self_tokens : Int := tok (to_string (Elem.mk t a x [] tl))
      let required_tokens := max_tokens - self_tokens
      match cs with
      | [] => Elem.mk t a x [] tl
      | c :: rest => Elem.mk t a x (pruneWalk tok required_tokens 0 c rest) tl
termination_by sizeOf e
/-- The `for idx, child in enumerate(children)` loop of `prune_by_tokens`
fused with the re-attachment `ele.extend(children[: idx + 1])` and the
recursive call `prune_by_tokens(tokenizer, child, required_tokens -
acc_tokens)`: accepted children are kept whole; the boundary child (the
first that does not fit, or the last child when every child fits) is kept
and recursively pruned; children after the boundary are dropped. -/
def pruneWalk (tok : String → Nat) (required_tokens acc_tokens : Int)
    (c : Elem) (rest : List Elem) : List Elem :=
  let child_tokens : Int := tok (to_string c)
  if acc_tokens + child_tokens > required_tokens then
    [pruneFwd tok c (required_tokens - acc_tokens)]
  else
    match rest with
    | [] => [pruneFwd tok c (required_tokens - (acc_tokens + child_tokens))]
    | c2 :: rest2 => c :: pruneWalk tok required_tokens (acc_tokens + child_tokens) c2 rest2
termination_by sizeOf c + sizeOf rest
decreasing_by
  · cases rest <;> simp
  · simp
  · cases c
    simp
    omega
end

/-- `prune_by_tokens(tokenizer, ele, max_tokens, reversed)`.  The Python
parameter `reversed` shadows the builtin `reversed`, so on the
`reversed=True` path the statement `children = reversed(children)` calls
the boolean and raises `TypeError`; the raise is reached exactly when the
serialization exceeds the budget (the early-return fires first
otherwise).  Errors are modelled with `Except.error`. -/
def prune_by_tokens (tok : String → Nat) (e : Elem) (max_tokens : Int)
    (reversed_flag : Bool) : Except String Elem :=
  if (tok (to_string e) : Int) ≤ max_tokens then Except.ok e
  else if reversed_flag then Except.error "TypeError: bool object is not callable"
  else Except.ok (pruneFwd tok e max_tokens)

mutual
/-- Mirror of the recursion of `pruneFwd` recording whether the
element-shell budget condition holds at the root and at every boundary
child along the (single) recursion path, each with the leftover budget it
is actually given. -/
def shellFits (tok : String → Nat) (e : Elem) (max_tokens : Int) : Bool :=
  if (tok (to_string e) : Int) ≤ max_tokens then true
  else
    match e with
    | .mk t a x cs tl =>
      let self_tokens : Int := tok (to_string (Elem.mk t a x [] tl))
      let required_tokens := max_tokens - self_tokens
      match cs with
      | [] => decide (self_tokens ≤ max_tokens)
      | c :: rest => decide (self_tokens ≤ max_tokens) && shellFitsWalk tok required_tokens 0 c rest
termination_by sizeOf e
def shellFitsWalk (tok : String → Nat) (required_tokens acc_tokens : Int)
    (c : Elem) (rest : List Elem) : Bool :=
  let child_tokens : Int := tok (to_string c)
  if acc_tokens + child_tokens > required_tokens then
    shellFits tok c (required_tokens - acc_tokens)
  else
    match rest with
    | [] => shellFits tok c (required_tokens - (acc_tokens + child_tokens))
    | c2 :: rest2 => shellFitsWalk tok required_tokens (acc_tokens + child_tokens) c2 rest2
termination_by sizeOf c + sizeOf rest
decreasing_by
  · cases rest <;> simp
  · simp
  · cases c
    simp
    omega
end

/-- Strict lexicographic comparison of code-point lists: Python's `<` on
strings. -/
def listCharLt : List Char → List Char → Bool
  | [], [] => false
  | [], _ :: _ => true
  | _ :: _, [] => false
  | a :: as, b :: bs =>
      if a.toNat < b.toNat then true
      else if b.toNat < a.toNat then false
      else listCharLt as bs

/-- Python's `<=` on strings (code-point lexicographic order). -/
def pyStrLe (a b : String) : Bool := !(listCharLt b.toList a.toList)

/-- Insert into a sorted list (helper of `pySorted`). -/
def insortStr (s : String) : List String → List String
  | [] => [s]
  | t :: rest => if pyStrLe s t then s :: t :: rest else t :: insortStr s rest

/-- Python's `sorted` on a list of strings (any stable comparison sort;
insertion sort here). -/
def pySorted : List String → List String
  | [] => []
  | x :: rest => insortStr x (pySorted rest)

/-- `deduplicate_to_prune(xpaths)`: sort, then mark index `j` redundant
when some earlier index `i < j` satisfies `xpaths[j].startswith(xpaths[i])`,
and keep the non-redundant entries in order. -/
def deduplicate_to_prune (xpaths : List String) : List String :=
  let s := pySorted xpaths
  (List.range s.length).filterMap (fun j =>
    if (List.range j).any (fun i => startswith (s.getD j "") (s.getD i "")) then none
    else some (s.getD j ""))

/-- Self-or-descendant coverage of a path `p` by an address `a`
(claim C4's coverage relation): `p = a`, or `p` starts with `a ++ "/"`. -/
def covers (a p : String) : Bool := p == a || startswith p (a ++ "/")

/-- A path is covered by an address set when some member covers it. -/
def coveredBy (addrs : List String) (p : String) : Bool :=
  addrs.any (fun a => covers a p)

/-- `parent_xpath(xpath)` = `"/".join(xpath.split("/")[:-1])`: everything
before the last `/`, or `""` when there is no `/`. -/
def parent_xpath (xpath : String) : String :=
  String.mk (((xpath.toList.reverse.dropWhile (fun c => !(c == '/'))).drop 1).reverse)

/-- The clearing condition of `prune_by_xpath`: not an ancestor-or-self of
an include (`is_in_path`), not a descendant-or-self of an include
(`is_contained`), and some include starts with the parent address. -/
def pruneClears (xpath : String) (includes : List String) : Bool :=
  let is_in_path := includes.any (fun x => startswith x xpath)
  let is_contained := includes.any (fun x => startswith xpath x)
  !is_in_path && !is_contained && includes.any (fun x => startswith x (parent_xpath xpath))

/-- `prune_by_xpath(ele, xpath, includes)`: on the clearing branch the
node is blanked (`ele.clear(); ele.text = ""`; lxml's `clear` resets
children, attributes, text and tail) and `False` ("stop descending") is
returned; otherwise the node is untouched and `True` is returned. -/
def prune_by_xpath (e : Elem) (xpath : String) (includes : List String) : Elem × Bool :=
  if pruneClears xpath includes then (Elem.mk e.tag [] (some "") [] none, false)
  else (e, true)

/-- Decimal digits written most-significant first: the model of Python's
string interpolation of a non-negative integer. -/
def natDecimal (n : Nat) : List Char :=
  if _h : n < 10 then [Nat.digitChar n]
  else natDecimal (n / 10) ++ [Nat.digitChar (n % 10)]

/-- The tag-name segment used in address strings.  On an lxml comment
node Python would interpolate the repr of the `Comment` factory function;
the exact spelling is irrelevant to every claim, so the model uses
`"Comment"`. -/
def tagName : NodeTag → String
  | .el n => n
  | .comment => "Comment"

/-- The child-address rule shared by `_traverse` and
`_pre_order_traversal`: child `c` at position `i` of the sibling list
`cs` under address `xpath` gets segment `tag` when its tag is unique
among the siblings, and `tag[k]` (1-based `k` in document order)
otherwise. -/
def childXpath (xpath : String) (cs : List Elem) (i : Nat) (c : Elem) : String :=
  let cnt := (cs.filter (fun y => y.tag == c.tag)).length
  let rank := ((cs.take i).filter (fun y => y.tag == c.tag)).length
  if cnt > 1 then
    xpath ++ "/" ++ tagName c.tag ++ "[" ++ String.mk (natDecimal (rank + 1)) ++ "]"
  else xpath ++ "/" ++ tagName c.tag

mutual
/-- The pre-order driver of `extraction_based_pruning`:
`_pre_order_traversal` specialized to the callback
`prune_by_xpath(ele, xpath, includes)` (whose boolean result the driver
ignores — `_pre_order_traversal` always recurses into the current
children).  A cleared node has no children left, so recursing below it is
a no-op, exactly as in the source. -/
def preOrderApply (includes : List String) (e : Elem) (xpath : String) : Elem :=
  match e with
  | .mk t a x cs tl =>
    if pruneClears xpath includes then Elem.mk t [] (some "") [] none
    else Elem.mk t a x (preOrderList includes xpath cs 0 cs) tl
termination_by sizeOf e
/-- The child loop of `_pre_order_traversal`: visit each child with its
computed address. -/
def preOrderList (includes : List String) (xpath : String) (cs : List Elem) :
    Nat → List Elem → List Elem
  | _, [] => []
  | i, c :: rest =>
      preOrderApply includes c (childXpath xpath cs i c) ::
      preOrderList includes xpath cs (i + 1) rest
termination_by _ l => sizeOf l
end

/-- `extraction_based_pruning(tree, includes)` on an element root:
`pre_order_traversal(tree, …)` starts at address `f"/{tree.tag}"`. -/
def extraction_based_pruning (e : Elem) (includes : List String) : Elem :=
  preOrderApply includes e ("/" ++ tagName e.tag)

mutual
/-- `_traverse(root, xpath)`: post-order generator (flattened to the list
of yielded `(node, address)` pairs) — all descendants first, the node
itself last. -/
def traverseAux (e : Elem) (xpath : String) : List (Elem × String) :=
  match e with
  | .mk t a x cs tl => traverseAuxList xpath cs 0 cs ++ [(Elem.mk t a x cs tl, xpath)]
termination_by sizeOf e
/-- The child loop of `_traverse`. -/
def traverseAuxList (xpath : String) (cs : List Elem) :
    Nat → List Elem → List (Elem × String)
  | _, [] => []
  | i, c :: rest =>
      traverseAux c (childXpath xpath cs i c) ++ traverseAuxList xpath cs (i + 1) rest
termination_by _ l => sizeOf l
end

/-- The argument of `traverse`: an `etree._ElementTree` (whose
`getroot()` may be `None`) or a bare `etree._Element`. -/
inductive HtmlInput where
  | tree (root : Option Elem)
  | element (e : Elem)

/-- `traverse(tree)`: for an `_ElementTree`, raise `ValueError` when the
root is absent or its tag is not `"html"` — both checks run before the
generator is constructed, hence before any node is visited or yielded —
else return the generator over the root at base address `"/html"`; a bare
element is traversed at `f"/{tree.tag}"` with no check. -/
def feilian.traverse : HtmlInput → Except String (List (Elem × String))
  | .tree none => Except.error "root is None"
  | .tree (some root) =>
      if !(root.tag == NodeTag.el "html") then Except.error "root tag is not html"
      else Except.ok (traverseAux root "/html")
  | .element e => Except.ok (traverseAux e ("/" ++ tagName e.tag))

/-- The regex class `\d` (the scanned text is ASCII after the
`xmlcharrefreplace` encoding pass, so only `0`–`9` can occur). -/
def isDigitCh (c : Char) : Bool :=
  '0'.toNat ≤ c.toNat && c.toNat ≤ '9'.toNat

/-- The regex class `[0-9a-fA-F]`. -/
def isHexDigitCh (c : Char) : Bool :=
  isDigitCh c || ('a'.toNat ≤ c.toNat && c.toNat ≤ 'f'.toNat) ||
  ('A'.toNat ≤ c.toNat && c.toNat ≤ 'F'.toNat)

/-- Numeric value of a (hex) digit character. -/
def digitVal (c : Char) : Nat :=
  if isDigitCh c then c.toNat - '0'.toNat
  else if 'a'.toNat ≤ c.toNat && c.toNat ≤ 'f'.toNat then c.toNat - 'a'.toNat + 10
  else if 'A'.toNat ≤ c.toNat && c.toNat ≤ 'F'.toNat then c.toNat - 'A'.toNat + 10
  else 0

/-- Python's `int(s, base)` on a non-empty digit string (only digit
strings reach it in the source). -/
def parseDigitsBase (base : Nat) (l : List Char) : Nat :=
  l.foldl (fun a c => a * base + digitVal c) 0

/-- The numeric test of `strip_illegal_xml_characters`: is `n` in the
invalid-XML set `{0xB, 0xC, 0xFFFE, 0xFFFF} ∪ [0x0,0x8] ∪ [0xE,0x1F] ∪
[0xD800,0xDFFF]`? -/
def isInvalidCodepoint (n : Nat) : Bool :=
  n == 0xB || n == 0xC || n == 0xFFFE || n == 0xFFFF ||
  n ≤ 0x8 || (0xE ≤ n && n ≤ 0x1F) || (0xD800 ≤ n && n ≤ 0xDFFF)

/-- `strip_illegal_xml_characters(s, default, base)`: parse `s` in the
given base and return `""` when the value is in the invalid-XML set, else
the `default` (here both are char lists: the match's digit group and the
whole matched text). -/
def strip_illegal_xml_characters (s dflt : List Char) (base : Nat) : List Char :=
  if isInvalidCodepoint (parseDigitsBase base s) then [] else dflt

/-- `html.encode("ascii", "xmlcharrefreplace").decode("utf-8")`: ASCII
code points pass through, every other character becomes the decimal
character reference `&#N;`. -/
def encodeAscii (l : List Char) : List Char :=
  l.flatMap (fun c =>
    if c.toNat < 128 then [c] else '&' :: '#' :: (natDecimal c.toNat ++ [';']))

/-- `re.sub(r"&#(\d+);?", …strip_illegal_xml_characters(c.group(1),
c.group(0)), html)`: left-to-right scan; at `&#` followed by at least one
digit, the greedy digit run plus an optional `;` is the match and is
replaced by `strip_illegal_xml_characters`'s result; otherwise advance
one character. -/
def subDec (l : List Char) : List Char :=
  match l with
  | [] => []
  | '&' :: '#' :: rest =>
      let ds := rest.takeWhile isDigitCh
      if ds.isEmpty then '&' :: subDec ('#' :: rest)
      else
        let rest2 := rest.dropWhile isDigitCh
        if rest2.head? == some ';' then
          strip_illegal_xml_characters ds ('&' :: '#' :: (ds ++ [';'])) 10 ++ subDec rest2.tail
        else
          strip_illegal_xml_characters ds ('&' :: '#' :: ds) 10 ++ subDec rest2
  | c :: rest => c :: subDec rest
termination_by l.length
decreasing_by
  · simp
  · have hd : (rest.dropWhile isDigitCh).length ≤ rest.length :=
      (List.dropWhile_sublist isDigitCh).length_le
    simp
    omega
  · have hd : (rest.dropWhile isDigitCh).length ≤ rest.length :=
      (List.dropWhile_sublist isDigitCh).length_le
    simp
    omega
  · simp

/-- `re.sub(r"&#[xX]([0-9a-fA-F]+);?", …, html)`: as `subDec` with a hex
marker and hex digits, parsed in base 16. -/
def subHex (l : List Char) : List Char :=
  match l with
  | [] => []
  | '&' :: '#' :: m :: rest =>
      if m == 'x' || m == 'X' then
        let ds := rest.takeWhile isHexDigitCh
        if ds.isEmpty then '&' :: subHex ('#' :: m :: rest)
        else
          let rest2 := rest.dropWhile isHexDigitCh
          if rest2.head? == some ';' then
            strip_illegal_xml_characters ds ('&' :: '#' :: m :: (ds ++ [';'])) 16 ++ subHex rest2.tail
          else
            strip_illegal_xml_characters ds ('&' :: '#' :: m :: ds) 16 ++ subHex rest2
      else '&' :: subHex ('#' :: m :: rest)
  | c :: rest => c :: subHex rest
termination_by l.length
decreasing_by
  · simp
  · have hd : (rest.dropWhile isHexDigitCh).length ≤ rest.length :=
      (List.dropWhile_sublist isHexDigitCh).length_le
    simp
    omega
  · have hd : (rest.dropWhile isHexDigitCh).length ≤ rest.length :=
      (List.dropWhile_sublist isHexDigitCh).length_le
    simp
    omega
  · simp
  · simp

/-- The character class of `ILLEGAL_XML_CHARS_RE`:
`[\x00-\x08\x0b\x0c\x0e-\x1F\uD800-\uDFFF￾￿]` (the surrogate
range is vacuous on Lean `Char`, which carries only scalar values; it is
kept for fidelity to the regex). -/
def isIllegalXmlChar (c : Char) : Bool :=
  c.toNat ≤ 0x8 || c.toNat == 0xB || c.toNat == 0xC ||
  (0xE ≤ c.toNat && c.toNat ≤ 0x1F) ||
  (0xD800 ≤ c.toNat && c.toNat ≤ 0xDFFF) ||
  c.toNat == 0xFFFE || c.toNat == 0xFFFF

/-- `remove_control_characters(html)`: encode non-ASCII to decimal char
refs, strip invalid decimal refs, strip invalid hex refs, then delete
literal illegal characters. -/
def remove_control_characters (html : String) : String :=
  String.mk (((subHex (subDec (encodeAscii html.toList))).filter
    (fun c => !(isIllegalXmlChar c))))

/-- Claim C10's detector: does the text contain (at any position) a
decimal reference `&#` + digits or a hex reference `&#x`/`&#X` + hex
digits whose maximal digit run denotes a code point in the invalid-XML
set?  (The trailing `;` is optional, as in the reference syntax the
source's regexes accept.) -/
def hasInvalidRef (l : List Char) : Bool :=
  match l with
  | [] => false
  | '&' :: '#' :: rest =>
      (let ds := rest.takeWhile isDigitCh
       !ds.isEmpty && isInvalidCodepoint (parseDigitsBase 10 ds)) ||
      (match rest with
       | m :: rest2 =>
         (m == 'x' || m == 'X') &&
         (let hs := rest2.takeWhile isHexDigitCh
          !hs.isEmpty && isInvalidCodepoint (parseDigitsBase 16 hs))
       | [] => false) ||
      hasInvalidRef ('#' :: rest)
  | _ :: rest => hasInvalidRef rest
termination_by l.length
decreasing_by
  · simp
  · simp

/-! Concrete sample inputs used by counterexamples and witnesses. -/

/-- A character-count tokenizer (a valid pure tokenizer capability). -/
def lenTok (s : String) : Nat := s.toList.length

/-- `<b>0123456789012345</b>` -/
def cexB : Elem := Elem.mk (NodeTag.el "b") [] (some "0123456789012345") [] none

/-- `<a><b>0123456789012345</b></a>` — 30 characters serialized; the
childless shell `<a/>` is 4 characters. -/
def cexA : Elem := Elem.mk (NodeTag.el "a") [] none [cexB] none

/-- `<a>xxxxxxxxxx<b/></a>` — 21 characters serialized; the childless
shell `<a>xxxxxxxxxx</a>` is 17 characters. -/
def cexOverShell : Elem :=
  Elem.mk (NodeTag.el "a") [] (some "xxxxxxxxxx")
    [Elem.mk (NodeTag.el "b") [] none [] none] none

/-- A tokenizer that charges nothing for `<b/>` and the character count
otherwise. -/
def zeroBTok (s : String) : Nat := if s = "<b/>" then 0 else s.toList.length

/-- `<a><b/><c>yy</c></a>` with `zeroBTok`: total 20, shell `<a></a>` = 7. -/
def zeroBSample : Elem :=
  Elem.mk (NodeTag.el "a") [] (some "")
    [Elem.mk (NodeTag.el "b") [] none [] none,
     Elem.mk (NodeTag.el "c") [] (some "yy") [] none] none

/-- `<script foo="bar"/>` as a traversal root. -/
def cexScriptRoot : Elem := Elem.mk (NodeTag.el "script") [("foo", "bar")] none [] none

/-- `<div class="x" onclick="f"><span style="a">t</span></div>`. -/
def wDiv : Elem :=
  Elem.mk (NodeTag.el "div") [("class", "x"), ("onclick", "f")] none
    [Elem.mk (NodeTag.el "span") [("style", "a")] (some "t") [] none] none

/-- `<div style="display:none"><span>x</span></div>` (claim C8). -/
def c8Div : Elem :=
  Elem.mk (NodeTag.el "div") [("style", "display:none")] none
    [Elem.mk (NodeTag.el "span") [] (some "x") [] none] none

/-- `<html><div><p>A</p><p>B</p></div></html>` (claim C6). -/
def c6Html : Elem :=
  Elem.mk (NodeTag.el "html") [] none
    [Elem.mk (NodeTag.el "div") [] none
      [Elem.mk (NodeTag.el "p") [] (some "A") [] none,
       Elem.mk (NodeTag.el "p") [] (some "B") [] none] none] none

/-- The zero tokenizer (charges nothing; trivially additive). -/
def zeroTok (_ : String) : Nat := 0


/-- The total token count of a list of children, each serialized on its
own (the quantity the greedy loop accumulates). -/
def sumTokens (tok : String → Nat) (cs : List Elem) : Int :=
  (cs.map (fun c => (tok (to_string c) : Int))).sum

mutual
/-- Every node of the tree: the root and, recursively, all nodes of the
children (pre-order; the order is irrelevant to the claims). -/
def allNodes (e : Elem) : List Elem :=
  e :: allNodesList e.children
termination_by sizeOf e
decreasing_by
  cases e
  simp [Elem.children]
  omega
def allNodesList : List Elem → List Elem
  | [] => []
  | c :: rest => allNodes c ++ allNodesList rest
termination_by l => sizeOf l
end

/-- Claim C3's per-node attribute property: every attribute key is
`class` or `id`, and no attribute is an `href` whose value begins with
`javascript:`. -/
def attrsClean (e : Elem) : Bool :=
  e.attribs.all (fun p =>
    (p.1 == "class" || p.1 == "id") &&
    !(p.1 == "href" && startswith p.2 "javascript:"))

/-- Invariant of the text after the `xmlcharrefreplace` encoding pass on
an ampersand-free input: every `&` begins a complete decimal character
reference `&#` + digits + `;`. -/
inductive AmpRef : List Char → Prop where
  | nil : AmpRef []
  | other {c : Char} {l : List Char} : c ≠ '&' → AmpRef l → AmpRef (c :: l)
  | ref {ds l : List Char} : ds ≠ [] → (∀ c ∈ ds, isDigitCh c = true) →
      AmpRef l → AmpRef ('&' :: '#' :: (ds ++ ';' :: l))

/-- Invariant after the decimal-reference pass: every `&` begins a
complete decimal reference whose value is not in the invalid-XML set. -/
inductive AmpOk : List Char → Prop where
  | nil : AmpOk []
  | other {c : Char} {l : List Char} : c ≠ '&' → AmpOk l → AmpOk (c :: l)
  | ref {ds l : List Char} : ds ≠ [] → (∀ c ∈ ds, isDigitCh c = true) →
      isInvalidCodepoint (parseDigitsBase 10 ds) = false →
      AmpOk l → AmpOk ('&' :: '#' :: (ds ++ ';' :: l))

/-!  Theorems.  -/

/-- Strong induction on the auto-generated size of an element. -/
theorem elem_strong_ind {P : Elem → Prop}
    (h : ∀ e, (∀ c : Elem, sizeOf c < sizeOf e → P c) → P e) : ∀ e, P e := by
  intro e
  have hn : ∀ n, ∀ x : Elem, sizeOf x < n → P x := by
    intro n
    induction n with
    | zero => intro x hx; omega
    | succ n ih => intro x hx; exact h x (fun c hc => ih c (by omega))
  exact hn (sizeOf e + 1) e (by omega)

/-- C2: the claim says `prune_by_tokens(…, reversed=True)` considers the
children in reverse document order and reverses the kept slice before
reattachment.  The code cannot do this: the parameter `reversed` shadows
the builtin, so once pruning is required the statement
`children = reversed(children)` calls a bool and raises `TypeError`.
Evidence at a concrete failing input: a 30-token element with budget 10
and the favor-right flag produces the `TypeError`, not a pruned tree. -/
theorem c2_reversed_true_raises_typeerror :
    prune_by_tokens lenTok cexA 10 true =
      Except.error "TypeError: bool object is not callable" := by
  simp [prune_by_tokens, cexA, cexB, to_string, serializeList, escape_text, lenTok,
        String.join]

/-- C9: `traverse` on an `_ElementTree` returns its generator (modelled:
`Except.ok` with the yielded pairs) exactly when the root is present and
its tag is `"html"`; otherwise it raises `ValueError` before anything is
yielded (modelled: `Except.error`, with no pair list produced). -/
theorem c9_traverse_root_check (t : Option Elem) :
    (∃ l, feilian.traverse (HtmlInput.tree t) = Except.ok l) ↔
    (∃ r, t = some r ∧ r.tag = NodeTag.el "html") := by
  cases t with
  | none => simp [feilian.traverse]
  | some r =>
    by_cases h : r.tag = NodeTag.el "html"
    · simp [feilian.traverse, h]
    · simp [feilian.traverse, h]

/-- C1 (counterexample): the budget condition `max_tokens ≥ tokens of the
childless shell` does not bound the output.  With the character-count
tokenizer, `<a><b>0123456789012345</b></a>` has 30 tokens, its shell
`<a/>` has 4 ≤ 10 tokens, yet `prune_by_tokens` with budget 10 returns
the element unchanged (the boundary child is kept for recursive trimming
and its own shell of 23 tokens already exceeds the leftover budget of 6),
so the output still has 30 > 10 tokens. -/
theorem c1_counterexample :
    (lenTok (to_string (remove_children cexA)) : Int) ≤ 10 ∧
    prune_by_tokens lenTok cexA 10 false = Except.ok cexA ∧
    ¬ ((lenTok (to_string cexA) : Int) ≤ 10) := by
  refine ⟨?_, ?_, ?_⟩
  · simp [cexA, cexB, remove_children, Elem.withChildren, to_string, serializeList,
          escape_text, lenTok, String.join]
  · simp [prune_by_tokens, pruneFwd, pruneWalk, cexA, cexB, to_string, serializeList,
          escape_text, lenTok, String.join, remove_children, Elem.withChildren]
  · simp [cexA, cexB, to_string, serializeList, escape_text, lenTok, String.join]

/-- C5 (counterexample): with `remaining = max_tokens - self_tokens ≤ 0`
the element does not end up childless: the greedy loop breaks at index 0
and `children[: idx + 1]` re-attaches the first (boundary) child.  With
the character-count tokenizer, `<a>xxxxxxxxxx<b/></a>` (21 tokens, shell
17) at budget 10 has `remaining = -7 ≤ 0` and returns with one child. -/
theorem c5_counterexample :
    ¬ ((lenTok (to_string cexOverShell) : Int) ≤ 10) ∧
    10 - (lenTok (to_string (remove_children cexOverShell)) : Int) ≤ 0 ∧
    prune_by_tokens lenTok cexOverShell 10 false = Except.ok cexOverShell ∧
    cexOverShell.children ≠ [] := by
  refine ⟨?_, ?_, ?_, ?_⟩
  · simp [cexOverShell, to_string, serializeList, escape_text, lenTok, String.join]
  · simp [cexOverShell, remove_children, Elem.withChildren, to_string, serializeList,
          escape_text, lenTok, String.join]
  · simp [prune_by_tokens, pruneFwd, pruneWalk, cexOverShell, to_string, serializeList,
          escape_text, lenTok, String.join, remove_children, Elem.withChildren]
  · simp [cexOverShell, Elem.children]

/-- C3 (counterexample): the sanitizer's removal branches return before
the attribute-stripping rules, and `_remove` on the traversal root is a
no-op, so a root whose tag is in the interactive denylist keeps all of
its attributes.  `clean_html(<script foo="bar"/>)` still carries
`foo="bar"`, which is neither `class` nor `id`. -/
theorem c3_counterexample :
    (clean_html cexScriptRoot).attribs = [("foo", "bar")] ∧
    ¬ ("foo" = "class" ∨ "foo" = "id") := by
  constructor
  · simp [clean_html, cleanList, cleanRemoves, cexScriptRoot, Elem.withChildren,
          Elem.children, INTERACTIVE_ELEMENTS, Elem.attribs, Elem.tag]
  · simp

/-- C4 (counterexample): redundancy is textual `startswith`, so
`"/a/b"` absorbs `"/a/bc"` although the latter is not a self-or-descendant
of the former; the path `"/a/bc"` is covered by the input but not by the
reduced output. -/
theorem c4_counterexample :
    coveredBy ["/a/b", "/a/bc"] "/a/bc" = true ∧
    coveredBy (deduplicate_to_prune ["/a/b", "/a/bc"]) "/a/bc" = false := by
  constructor
  · decide
  · decide

/-- C8: sanitizing `<div style="display:none"><span>x</span></div>`
leaves the `div` in the tree with no children, empty text and an empty
attribute set (`ele.clear()` removes the `style` attribute itself, then
`ele.text = ""`). -/
theorem c8_display_none_blanked :
    clean_html c8Div = Elem.mk (NodeTag.el "div") [] (some "") [] none := by
  simp [c8Div, clean_html, cleanList, cleanRemoves, cleanRules, INTERACTIVE_ELEMENTS,
        Elem.withChildren, Elem.children, Elem.tag, Elem.attribs, Elem.text, Elem.tail,
        attrGet, displayNoneSearch, startsDisplayNone, isSpaceCh, List.tails]

/-- C6: `extraction_based_pruning` with include-set `["/html/div/p[1]"]`
on `<html><div><p>A</p><p>B</p></div></html>` leaves `html`, `div` and
the first `p` unmodified and blanks the second `p` (children and text
cleared, empty element kept). -/
theorem c6_extraction_pruning :
    extraction_based_pruning c6Html ["/html/div/p[1]"] =
      Elem.mk (NodeTag.el "html") [] none
        [Elem.mk (NodeTag.el "div") [] none
          [Elem.mk (NodeTag.el "p") [] (some "A") [] none,
           Elem.mk (NodeTag.el "p") [] (some "") [] none] none] none := by
  simp [extraction_based_pruning, preOrderApply, preOrderList, c6Html, pruneClears,
        parent_xpath, childXpath, startswith, tagName, natDecimal, Nat.digitChar,
        Elem.tag, Elem.attribs, Elem.text, Elem.tail, Elem.children, Elem.withChildren]

/-- C10 (counterexample): removing an invalid reference can splice a new
invalid reference out of its remnants.  On input `"&&#x0;#0;"` (all
legal ASCII), the decimal pass matches nothing, the hex pass removes
`&#x0;`, and the splice leaves `"&#0;"` — a decimal character reference
denoting U+0000, a member of the invalid-XML set, in the returned
string. -/
theorem c10_counterexample :
    remove_control_characters "&&#x0;#0;" = "&#0;" ∧
    hasInvalidRef ("&#0;".toList) = true := by
  constructor
  · have h : "&&#x0;#0;".toList = ['&', '&', '#', 'x', '0', ';', '#', '0', ';'] := by decide
    simp only [remove_control_characters, h]
    simp [encodeAscii, subDec, subHex, isDigitCh, isHexDigitCh,
          strip_illegal_xml_characters, parseDigitsBase, digitVal, isInvalidCodepoint,
          isIllegalXmlChar]
  · have h : "&#0;".toList = ['&', '#', '0', ';'] := by decide
    rw [h]
    simp [hasInvalidRef, isDigitCh, isHexDigitCh, parseDigitsBase, digitVal,
          isInvalidCodepoint]

theorem pruneWalk_ne_nil (tok : String → Nat) (required acc : Int) (c : Elem)
    (rest : List Elem) : pruneWalk tok required acc c rest ≠ [] := by
  cases rest with
  | nil =>
    simp only [pruneWalk]
    split <;> simp
  | cons c2 rest2 =>
    simp only [pruneWalk]
    split <;> simp

theorem pruneWalk_dropLast_zero (tok : String → Nat) (required : Int)
    (hreq : required ≤ 0) :
    ∀ (rest : List Elem) (c : Elem) (acc : Int), 0 ≤ acc →
      ∀ y ∈ (pruneWalk tok required acc c rest).dropLast, tok (to_string y) = 0 := by
  intro rest
  induction rest with
  | nil =>
    intro c acc hacc y hy
    simp only [pruneWalk] at hy
    split at hy <;> simp at hy
  | cons c2 rest2 ih =>
    intro c acc hacc y hy
    simp only [pruneWalk] at hy
    by_cases hbr : acc + (tok (to_string c) : Int) > required
    · rw [if_pos hbr] at hy
      simp at hy
    · rw [if_neg hbr] at hy
      have hne := pruneWalk_ne_nil tok required (acc + (tok (to_string c) : Int)) c2 rest2
      rw [List.dropLast_cons_of_ne_nil hne] at hy
      rcases List.mem_cons.mp hy with rfl | hy2
      · have hz : (tok (to_string y) : Int) = 0 := by omega
        exact_mod_cast hz
      · exact ih c2 (acc + (tok (to_string c) : Int)) (by omega) y hy2

/-- C5 (amended): when the serialization exceeds the budget and
`remaining = max_tokens - self_tokens ≤ 0`, the element is not
necessarily childless; instead, every retained child except the final
(recursively pruned) boundary child has serialization token count 0 —
the greedy loop can accept only zero-token children before breaking, and
`children[: idx + 1]` keeps the boundary child itself. -/
theorem c5_amended (tok : String → Nat) (e : Elem) (max_tokens : Int)
    (hover : ¬ ((tok (to_string e) : Int) ≤ max_tokens))
    (hreq : max_tokens - (tok (to_string (remove_children e)) : Int) ≤ 0) :
    ∀ c ∈ (pruneFwd tok e max_tokens).children.dropLast, tok (to_string c) = 0 := by
  intro y hy
  cases e with
  | mk t a x cs tl =>
    unfold pruneFwd at hy
    rw [if_neg hover] at hy
    cases cs with
    | nil => simp [Elem.children] at hy
    | cons c rest =>
      simp only [Elem.children] at hy
      refine pruneWalk_dropLast_zero tok _ ?_ rest c 0 le_rfl y hy
      simpa [remove_children, Elem.withChildren] using hreq

/-- Witness for C5 (amended) at a concrete input: `<a><b/><c>yy</c></a>`
with a tokenizer that charges 0 for `<b/>` and character count otherwise,
budget 7 (= the shell `<a></a>`): the tree is over budget, remaining is
0, and every kept child except the boundary child has token count 0. -/
theorem c5_amended_witness :
    (¬ ((zeroBTok (to_string zeroBSample) : Int) ≤ 7)) ∧
    (7 - (zeroBTok (to_string (remove_children zeroBSample)) : Int) ≤ 0) ∧
    ∀ c ∈ (pruneFwd zeroBTok zeroBSample 7).children.dropLast, zeroBTok (to_string c) = 0 := by
  refine ⟨?h1, ?h2, c5_amended zeroBTok zeroBSample 7 ?h1 ?h2⟩
  · simp [zeroBSample, zeroBTok, to_string, serializeList, escape_text, String.join]
  · simp [zeroBSample, zeroBTok, to_string, serializeList, escape_text, String.join,
          remove_children, Elem.withChildren]

theorem withChildren_tag (e : Elem) (cs : List Elem) :
    (Elem.withChildren e cs).tag = e.tag := by
  cases e
  simp [Elem.withChildren, Elem.tag]

theorem withChildren_children (e : Elem) (cs : List Elem) :
    (Elem.withChildren e cs).children = cs := by
  cases e
  simp [Elem.withChildren, Elem.children]

theorem cleanRules_tag (e : Elem) : (cleanRules e).tag = e.tag := by
  unfold cleanRules
  split
  · simp [Elem.tag]
  · split
    · rfl
    · simp [Elem.tag]

theorem clean_html_tag (e : Elem) : (clean_html e).tag = e.tag := by
  simp only [clean_html]
  split
  · exact withChildren_tag e _
  · rw [cleanRules_tag]
    exact withChildren_tag e _

theorem cleanRemoves_tag_eq {x y : Elem} (h : x.tag = y.tag) :
    cleanRemoves x = cleanRemoves y := by
  unfold cleanRemoves
  rw [h]

theorem cleanRemoves_clean_html (e : Elem) :
    cleanRemoves (clean_html e) = cleanRemoves e :=
  cleanRemoves_tag_eq (clean_html_tag e)

theorem Elem.sizeOf_mem_children {c e : Elem} (h : c ∈ e.children) :
    sizeOf c < sizeOf e := by
  cases e with
  | mk t a x cs tl =>
    simp only [Elem.children] at h
    have := List.sizeOf_lt_of_mem h
    simp
    omega

theorem mem_cleanList {m : Elem} :
    ∀ {cs : List Elem}, m ∈ cleanList cs →
      ∃ c ∈ cs, m = clean_html c ∧ cleanRemoves m = false := by
  intro cs
  induction cs with
  | nil => simp [cleanList]
  | cons c rest ih =>
    intro hm
    simp only [cleanList] at hm
    by_cases hr : cleanRemoves (clean_html c) = true
    · rw [if_pos hr] at hm
      obtain ⟨c', hc', he, hrm⟩ := ih hm
      exact ⟨c', List.mem_cons_of_mem c hc', he, hrm⟩
    · rw [if_neg hr] at hm
      rcases List.mem_cons.mp hm with rfl | hm2
      · exact ⟨c, List.mem_cons_self c rest, rfl, by simpa using hr⟩
      · obtain ⟨c', hc', he, hrm⟩ := ih hm2
        exact ⟨c', List.mem_cons_of_mem c hc', he, hrm⟩

theorem mem_allNodesList {n : Elem} :
    ∀ {cs : List Elem}, n ∈ allNodesList cs ↔ ∃ m ∈ cs, n ∈ allNodes m := by
  intro cs
  induction cs with
  | nil => simp [allNodesList]
  | cons c rest ih =>
    simp only [allNodesList, List.mem_append, ih, List.mem_cons]
    constructor
    · rintro (h | ⟨m, hm, hn⟩)
      · exact ⟨c, Or.inl rfl, h⟩
      · exact ⟨m, Or.inr hm, hn⟩
    · rintro ⟨m, hm | hm, hn⟩
      · exact Or.inl (hm ▸ hn)
      · exact Or.inr ⟨m, hm, hn⟩

theorem attrsClean_cleanRules (e : Elem) : attrsClean (cleanRules e) = true := by
  cases e with
  | mk t a x cs tl =>
    simp only [cleanRules, Elem.attribs, Elem.tag, Elem.text, Elem.children, Elem.tail]
    split
    · simp [attrsClean, Elem.attribs]
    · split
      · rename_i hemp
        simp only [attrsClean, Elem.attribs]
        rw [List.all_eq_true]
        intro p hp
        rw [List.isEmpty_iff.mp hemp] at hp
        simp at hp
      · simp only [attrsClean, Elem.attribs]
        rw [List.all_eq_true]
        intro p hp
        simp only [attrDel] at hp
        have hp1 : p ∈ a.filter (fun q => q.1 == "class" || q.1 == "id") := by
          split at hp <;> split at hp <;>
            first
            | exact (List.mem_filter.mp (List.mem_filter.mp hp).1).1
            | exact (List.mem_filter.mp hp).1
            | exact hp
        have hkey := (List.mem_filter.mp hp1).2
        simp only [Bool.or_eq_true, beq_iff_eq] at hkey
        simp only [Bool.and_eq_true, Bool.or_eq_true, beq_iff_eq, Bool.not_eq_true']
        refine ⟨hkey, ?_⟩
        rcases hkey with h | h <;> simp [h]

theorem cleanRules_children (e : Elem) :
    (cleanRules e).children = e.children ∨ (cleanRules e).children = [] := by
  unfold cleanRules
  split
  · right; simp [Elem.children]
  · split
    · left; rfl
    · left; simp [Elem.children]

/-- C3 (amended): for every input tree whose root is not itself a removal
target of the sanitizer (not a comment, tag not in the interactive
denylist), every node of `clean_html`'s output carries only `class` / `id`
attributes and in particular no `href` beginning with `javascript:`.  (An
interactive-tagged root is returned with its attributes untouched — see
the counterexample — because removal of a parentless node is a no-op and
the removal branch returns before the stripping rules.) -/
theorem c3_amended (e : Elem) (hroot : cleanRemoves e = false) :
    ∀ n ∈ allNodes (clean_html e), attrsClean n = true := by
  refine elem_strong_ind
    (P := fun e => cleanRemoves e = false → ∀ n ∈ allNodes (clean_html e), attrsClean n = true)
    ?_ e hroot
  intro e ih hrem n hn
  simp only [clean_html] at hn
  rw [cleanRemoves_tag_eq (withChildren_tag e (cleanList e.children)), hrem] at hn
  simp only [Bool.false_eq_true, if_false] at hn
  simp only [allNodes, List.mem_cons] at hn
  rcases hn with rfl | hn2
  · exact attrsClean_cleanRules _
  · rcases cleanRules_children (Elem.withChildren e (cleanList e.children)) with hch | hch
    · rw [hch, withChildren_children] at hn2
      obtain ⟨m, hm, hnm⟩ := mem_allNodesList.mp hn2
      obtain ⟨c, hc, rfl, hrm⟩ := mem_cleanList hm
      have hrc : cleanRemoves c = false := by
        rw [← cleanRemoves_clean_html c]
        exact hrm
      exact ih c (Elem.sizeOf_mem_children hc) hrc n hnm
    · rw [hch] at hn2
      simp [allNodesList] at hn2

/-- Witness for C3 (amended): a concrete `div` root with an `onclick`
attribute and a styled `span` child; after sanitization every node's
attribute set is within `{class, id}`. -/
theorem c3_amended_witness :
    cleanRemoves wDiv = false ∧ ∀ n ∈ allNodes (clean_html wDiv), attrsClean n = true :=
  ⟨by decide, c3_amended wDiv (by decide)⟩

theorem withChildren_withChildren (e : Elem) (cs cs2 : List Elem) :
    Elem.withChildren (Elem.withChildren e cs) cs2 = Elem.withChildren e cs2 := by
  cases e
  simp [Elem.withChildren]

theorem withChildren_self (e : Elem) : Elem.withChildren e e.children = e := by
  cases e
  simp [Elem.withChildren, Elem.children]

theorem attrGet_eq_none_of_keys {a : List (String × String)} {k : String}
    (h : ∀ p ∈ a, ¬ p.1 = k) : attrGet a k = none := by
  unfold attrGet
  rw [List.find?_eq_none.mpr]
  · rfl
  · intro p hp
    simpa using h p hp

theorem cleanRules_fixed (y : Elem)
    (h : ∀ p ∈ y.attribs, p.1 = "class" ∨ p.1 = "id") : cleanRules y = y := by
  cases y with
  | mk t a x cs tl =>
    simp only [Elem.attribs] at h
    have hstyle : attrGet a "style" = none := attrGet_eq_none_of_keys (by
      intro p hp hk
      rcases h p hp with h1 | h1 <;> rw [hk] at h1 <;> simp at h1)
    have hhref : attrGet a "href" = none := attrGet_eq_none_of_keys (by
      intro p hp hk
      rcases h p hp with h1 | h1 <;> rw [hk] at h1 <;> simp at h1)
    have hsrc : attrGet a "src" = none := attrGet_eq_none_of_keys (by
      intro p hp hk
      rcases h p hp with h1 | h1 <;> rw [hk] at h1 <;> simp at h1)
    have hfilter : a.filter (fun q => q.1 == "class" || q.1 == "id") = a :=
      List.filter_eq_self.mpr (by
        intro p hp
        rcases h p hp with h1 | h1 <;> simp [h1])
    rw [cleanRules]
    simp only [Elem.attribs, Elem.tag, Elem.text, Elem.children, Elem.tail,
               hstyle, hfilter, hhref, hsrc]
    by_cases hemp : a.isEmpty
    · simp [hemp]
    · simp [hemp, hsrc]

theorem cleanRules_idem (e : Elem) : cleanRules (cleanRules e) = cleanRules e := by
  cases e with
  | mk t a x cs tl =>
    by_cases h1 : (attrGet a "style").any (fun v => displayNoneSearch v) = true
    · have he : cleanRules (Elem.mk t a x cs tl) = Elem.mk t [] (some "") [] none := by
        rw [cleanRules]
        simp [Elem.attribs, Elem.tag, h1]
      rw [he]
      exact cleanRules_fixed _ (by simp [Elem.attribs])
    · by_cases h2 : a.isEmpty = true
      · have he : cleanRules (Elem.mk t a x cs tl) = Elem.mk t a x cs tl := by
          rw [cleanRules]
          simp [Elem.attribs, h1, h2]
        rw [he]
        exact he
      · refine cleanRules_fixed _ ?_
        intro p hp
        rw [cleanRules] at hp
        simp only [Elem.attribs, Elem.tag, Elem.text, Elem.children, Elem.tail,
                   h1, h2, Bool.false_eq_true, if_false] at hp
        simp only [attrDel] at hp
        have hp1 : p ∈ a.filter (fun q => q.1 == "class" || q.1 == "id") := by
          split at hp <;> split at hp <;>
            first
            | exact (List.mem_filter.mp (List.mem_filter.mp hp).1).1
            | exact (List.mem_filter.mp hp).1
            | exact hp
        have hkey := (List.mem_filter.mp hp1).2
        simpa using hkey

theorem cleanList_of_fixed :
    ∀ {L : List Elem}, (∀ m ∈ L, cleanRemoves m = false ∧ clean_html m = m) →
      cleanList L = L := by
  intro L
  induction L with
  | nil => intro _; simp [cleanList]
  | cons m rest ih =>
    intro h
    obtain ⟨hm, hfix⟩ := h m (List.mem_cons_self m rest)
    simp only [cleanList, hfix, hm, Bool.false_eq_true, if_false]
    rw [ih (fun y hy => h y (List.mem_cons_of_mem m hy))]

theorem clean_html_of_removes {e : Elem} (h : cleanRemoves e = true) :
    clean_html e = Elem.withChildren e (cleanList e.children) := by
  simp only [clean_html]
  rw [cleanRemoves_tag_eq (withChildren_tag e (cleanList e.children)), h]
  simp

theorem clean_html_of_keeps {e : Elem} (h : cleanRemoves e = false) :
    clean_html e = cleanRules (Elem.withChildren e (cleanList e.children)) := by
  simp only [clean_html]
  rw [cleanRemoves_tag_eq (withChildren_tag e (cleanList e.children)), h]
  simp

theorem clean_html_idem : ∀ e : Elem, clean_html (clean_html e) = clean_html e := by
  refine elem_strong_ind ?_
  intro e ih
  have hmem : ∀ m ∈ cleanList e.children, cleanRemoves m = false ∧ clean_html m = m := by
    intro m hm
    obtain ⟨c, hc, rfl, hrm⟩ := mem_cleanList hm
    exact ⟨hrm, ih c (Elem.sizeOf_mem_children hc)⟩
  have hLfix : cleanList (cleanList e.children) = cleanList e.children :=
    cleanList_of_fixed hmem
  by_cases hrem : cleanRemoves e = true
  · rw [clean_html_of_removes hrem]
    rw [clean_html_of_removes (by rw [cleanRemoves_tag_eq (withChildren_tag e _)]; exact hrem)]
    rw [withChildren_children, hLfix, withChildren_withChildren]
  · have hrem2 : cleanRemoves e = false := by simpa using hrem
    rw [clean_html_of_keeps hrem2]
    set s1 := cleanRules (Elem.withChildren e (cleanList e.children)) with hs1
    have hrs1 : cleanRemoves s1 = false := by
      rw [hs1, cleanRemoves_tag_eq (cleanRules_tag _),
          cleanRemoves_tag_eq (withChildren_tag e _)]
      exact hrem2
    rw [clean_html_of_keeps hrs1]
    have hchfix : cleanList s1.children = s1.children := by
      rcases cleanRules_children (Elem.withChildren e (cleanList e.children)) with hch | hch
      · rw [← hs1] at hch
        rw [hch, withChildren_children, hLfix]
      · rw [← hs1] at hch
        rw [hch]
        simp [cleanList]
    rw [hchfix, withChildren_self, hs1, cleanRules_idem]

/-- C7: sanitization is idempotent — applying `clean_html` twice yields a
tree with the identical serialization to applying it once (indeed, the
very same tree, by `clean_html_idem`). -/
theorem c7_clean_html_idempotent (e : Elem) :
    to_string (clean_html (clean_html e)) = to_string (clean_html e) := by
  rw [clean_html_idem]

theorem pruneFwd_eq_of_le {tok : String → Nat} {e : Elem} {m : Int}
    (h : (tok (to_string e) : Int) ≤ m) : pruneFwd tok e m = e := by
  unfold pruneFwd
  rw [if_pos h]

theorem sumTokens_nil (tok : String → Nat) : sumTokens tok [] = 0 := by
  simp [sumTokens]

theorem sumTokens_cons (tok : String → Nat) (c : Elem) (cs : List Elem) :
    sumTokens tok (c :: cs) = (tok (to_string c) : Int) + sumTokens tok cs := by
  simp [sumTokens]

theorem pruneWalk_sum_le (tok : String → Nat) (required : Int) :
    ∀ (rest : List Elem) (c : Elem) (acc : Int),
      (∀ y, (y = c ∨ y ∈ rest) → ∀ b, shellFits tok y b = true →
        (tok (to_string (pruneFwd tok y b)) : Int) ≤ b) →
      shellFitsWalk tok required acc c rest = true →
      sumTokens tok (pruneWalk tok required acc c rest) ≤ required - acc := by
  intro rest
  induction rest with
  | nil =>
    intro c acc hIH hfit
    simp only [pruneWalk, shellFitsWalk] at *
    by_cases hbr : required < acc + (tok (to_string c) : Int)
    · rw [if_pos hbr] at hfit ⊢
      rw [sumTokens_cons, sumTokens_nil]
      have := hIH c (Or.inl rfl) (required - acc) hfit
      omega
    · rw [if_neg hbr] at hfit ⊢
      rw [sumTokens_cons, sumTokens_nil]
      have := hIH c (Or.inl rfl) (required - (acc + (tok (to_string c) : Int))) hfit
      have hnn : (0 : Int) ≤ (tok (to_string c) : Int) := Int.natCast_nonneg _
      omega
  | cons c2 rest2 ih =>
    intro c acc hIH hfit
    simp only [pruneWalk, shellFitsWalk] at *
    by_cases hbr : required < acc + (tok (to_string c) : Int)
    · rw [if_pos hbr] at hfit ⊢
      rw [sumTokens_cons, sumTokens_nil]
      have := hIH c (Or.inl rfl) (required - acc) hfit
      omega
    · rw [if_neg hbr] at hfit ⊢
      rw [sumTokens_cons]
      have hrec := ih c2 (acc + (tok (to_string c) : Int))
        (fun y hy b hb => hIH y (Or.inr (by
          rcases hy with rfl | hy2
          · simp
          · simp [hy2])) b hb)
        hfit
      omega

theorem pruneFwd_le (tok : String → Nat)
    (hadd : ∀ (t : NodeTag) (a : List (String × String)) (x : Option String)
        (cs : List Elem) (tl : Option String),
        (tok (to_string (Elem.mk t a x cs tl)) : Int) =
          (tok (to_string (Elem.mk t a x [] tl)) : Int) + sumTokens tok cs) :
    ∀ e (m : Int), shellFits tok e m = true →
      (tok (to_string (pruneFwd tok e m)) : Int) ≤ m := by
  refine elem_strong_ind
    (P := fun e => ∀ m : Int, shellFits tok e m = true →
      (tok (to_string (pruneFwd tok e m)) : Int) ≤ m) ?_
  intro e ih m hfit
  by_cases htot : (tok (to_string e) : Int) ≤ m
  · rw [pruneFwd_eq_of_le htot]
    exact htot
  · cases e with
    | mk t a x cs tl =>
      simp only [pruneFwd] at *
      rw [if_neg htot]
      simp only [shellFits] at hfit
      rw [if_neg htot] at hfit
      cases cs with
      | nil =>
        simp at hfit
        simpa using hfit
      | cons c rest =>
        rw [Bool.and_eq_true] at hfit
        have hwalk := pruneWalk_sum_le tok
          (m - (tok (to_string (Elem.mk t a x [] tl)) : Int)) rest c 0
          (fun y hy b hb => by
            refine ih y ?_ b hb
            have : y ∈ Elem.children (Elem.mk t a x (c :: rest) tl) := by
              simp only [Elem.children]
              rcases hy with rfl | hy2
              · simp
              · simp [hy2]
            exact Elem.sizeOf_mem_children this)
          hfit.2
        rw [hadd t a x (pruneWalk tok (m - (tok (to_string (Elem.mk t a x [] tl)) : Int)) 0 c rest) tl]
        omega

theorem sumTokens_zeroTok (cs : List Elem) : sumTokens zeroTok cs = 0 := by
  induction cs with
  | nil => simp [sumTokens]
  | cons c rest ih => rw [sumTokens_cons, ih]; simp [zeroTok]

/-- C1 (amended): the root-shell budget condition alone does not bound
the output (see the counterexample); the bound holds under the two
conditions the algorithm actually relies on — the tokenizer is additive
across an element's shell and its children's serializations, and the
childless-shell condition holds not only at the root but at every
boundary child along the recursion path, each with the leftover budget it
is given (`shellFits`).  Then `prune_by_tokens` (favor-left) returns a
tree whose serialization fits the budget. -/
theorem c1_amended (tok : String → Nat) (e : Elem) (max_tokens : Int)
    (hadd : ∀ (t : NodeTag) (a : List (String × String)) (x : Option String)
        (cs : List Elem) (tl : Option String),
        (tok (to_string (Elem.mk t a x cs tl)) : Int) =
          (tok (to_string (Elem.mk t a x [] tl)) : Int) + sumTokens tok cs)
    (hshell : (tok (to_string (remove_children e)) : Int) ≤ max_tokens)
    (hfits : shellFits tok e max_tokens = true) :
    ∃ r, prune_by_tokens tok e max_tokens false = Except.ok r ∧
      (tok (to_string r) : Int) ≤ max_tokens := by
  clear hshell
  refine ⟨pruneFwd tok e max_tokens, ?_, pruneFwd_le tok hadd e max_tokens hfits⟩
  unfold prune_by_tokens
  by_cases h : (tok (to_string e) : Int) ≤ max_tokens
  · rw [if_pos h, pruneFwd_eq_of_le h]
  · rw [if_neg h]
    rfl

/-- Witness for C1 (amended) at a concrete input: the zero tokenizer is
additive and satisfies the shell conditions everywhere, and the pruned
output fits the budget 3. -/
theorem c1_amended_witness :
    ∃ r, prune_by_tokens zeroTok cexB 3 false = Except.ok r ∧
      (zeroTok (to_string r) : Int) ≤ 3 :=
  c1_amended zeroTok cexB 3
    (fun t a x cs tl => by rw [sumTokens_zeroTok]; simp [zeroTok])
    (by simp [zeroTok])
    (by simp [cexB, shellFits, zeroTok])

theorem startswith_refl (s : String) : startswith s s = true := by
  simp [startswith]

theorem startswith_trans {a b c : String} (h1 : startswith a b = true)
    (h2 : startswith b c = true) : startswith a c = true := by
  simp only [startswith, List.isPrefixOf_iff_prefix] at *
  exact h2.trans h1

theorem mem_insortStr {y x : String} :
    ∀ {l : List String}, y ∈ insortStr x l ↔ y = x ∨ y ∈ l := by
  intro l
  induction l with
  | nil => simp [insortStr]
  | cons t rest ih =>
    simp only [insortStr]
    split
    · simp
    · simp only [List.mem_cons, ih]
      tauto

theorem mem_pySorted {y : String} :
    ∀ {l : List String}, y ∈ pySorted l ↔ y ∈ l := by
  intro l
  induction l with
  | nil => simp [pySorted]
  | cons x rest ih =>
    simp only [pySorted, mem_insortStr, ih, List.mem_cons]

theorem mem_dedup_sorted {b : String} {xpaths : List String}
    (h : b ∈ deduplicate_to_prune xpaths) : b ∈ pySorted xpaths := by
  simp only [deduplicate_to_prune, List.mem_filterMap, List.mem_range] at h
  obtain ⟨j, hj, hfj⟩ := h
  split at hfj
  · simp at hfj
  · simp only [Option.some.injEq] at hfj
    subst hfj
    rw [List.getD_eq_getElem?_getD, List.getElem?_eq_getElem hj]
    exact Option.getD_some ▸ List.getElem_mem hj

theorem kept_mem_dedup {xpaths : List String} {k : Nat}
    (hk : k < (pySorted xpaths).length)
    (hkept : ((List.range k).any (fun i =>
      startswith ((pySorted xpaths).getD k "") ((pySorted xpaths).getD i ""))) = false) :
    (pySorted xpaths).getD k "" ∈ deduplicate_to_prune xpaths := by
  simp only [deduplicate_to_prune, List.mem_filterMap, List.mem_range]
  refine ⟨k, hk, ?_⟩
  rw [if_neg (by rw [hkept]; simp)]

theorem dedup_kept_prefix (s : List String) :
    ∀ j, j < s.length → ∃ k, k < s.length ∧ k ≤ j ∧
      ((List.range k).any (fun i => startswith (s.getD k "") (s.getD i ""))) = false ∧
      startswith (s.getD j "") (s.getD k "") = true := by
  intro j
  induction j using Nat.strong_induction_on with
  | _ j ih =>
    intro hj
    by_cases hrem : ((List.range j).any (fun i =>
        startswith (s.getD j "") (s.getD i ""))) = true
    · obtain ⟨i, hi, hpref⟩ := List.any_eq_true.mp hrem
      rw [List.mem_range] at hi
      obtain ⟨k, hk, hkj, hkept, hkpre⟩ := ih i hi (lt_trans hi hj)
      exact ⟨k, hk, le_trans hkj (le_of_lt hi), hkept, startswith_trans hpref hkpre⟩
    · exact ⟨j, hj, le_refl j, by simpa using hrem, startswith_refl _⟩

theorem covers_of_prefix {b a p : String}
    (hba : a = b ∨ startswith a (b ++ "/") = true)
    (hc : covers a p = true) : covers b p = true := by
  rcases hba with rfl | hext
  · exact hc
  · simp only [covers, Bool.or_eq_true, beq_iff_eq] at hc ⊢
    have hplen : startswith (a ++ "/") a = true := by
      simp [startswith, List.isPrefixOf_iff_prefix, String.data_append]
    rcases hc with rfl | hpa
    · exact Or.inr hext
    · exact Or.inr (startswith_trans hpa (startswith_trans hplen hext))

/-- C4 (amended): the coverage of `deduplicate_to_prune`'s output equals
the input's coverage *provided* textual prefixes among the addresses are
always true path prefixes — whenever one input address is a string prefix
of another, they are equal or the longer extends the shorter at a `/`
boundary.  (Without this proviso the claim fails: see the
counterexample, where `/a/b` absorbs the unrelated `/a/bc`.)  Address
sets produced by the address computer satisfy the proviso only when no
two sibling ordinals collide textually, e.g. `p[1]` vs `p[12]`. -/
theorem c4_amended (xpaths : List String)
    (hsep : ∀ a ∈ xpaths, ∀ b ∈ xpaths, startswith b a = true →
      a = b ∨ startswith b (a ++ "/") = true) :
    ∀ p, coveredBy (deduplicate_to_prune xpaths) p = coveredBy xpaths p := by
  intro p
  rw [Bool.eq_iff_iff]
  simp only [coveredBy, List.any_eq_true]
  constructor
  · rintro ⟨b, hb, hcov⟩
    exact ⟨b, mem_pySorted.mp (mem_dedup_sorted hb), hcov⟩
  · rintro ⟨a, ha, hcov⟩
    have hs : a ∈ pySorted xpaths := mem_pySorted.mpr ha
    obtain ⟨j, hj, hget⟩ := List.getElem_of_mem hs
    have hgetD : (pySorted xpaths).getD j "" = a := by
      rw [List.getD_eq_getElem?_getD, List.getElem?_eq_getElem hj, Option.getD_some, hget]
    obtain ⟨k, hk, _, hkept, hkpre⟩ := dedup_kept_prefix (pySorted xpaths) j hj
    refine ⟨(pySorted xpaths).getD k "", kept_mem_dedup hk hkept, ?_⟩
    rw [hgetD] at hkpre
    have hmemk : (pySorted xpaths).getD k "" ∈ pySorted xpaths := by
      rw [List.getD_eq_getElem?_getD, List.getElem?_eq_getElem hk, Option.getD_some]
      exact List.getElem_mem hk
    have hdisj := hsep ((pySorted xpaths).getD k "") (mem_pySorted.mp hmemk) a ha hkpre
    rcases hdisj with h | h
    · exact covers_of_prefix (Or.inl h.symm) hcov
    · exact covers_of_prefix (Or.inr h) hcov

/-- Witness for C4 (amended) at a concrete input whose textual prefixes
are all `/`-boundary path prefixes. -/
theorem c4_amended_witness :
    coveredBy (deduplicate_to_prune ["/html/div", "/html/div/p[1]", "/html/span"])
        "/html/div/p[1]/a" =
      coveredBy ["/html/div", "/html/div/p[1]", "/html/span"] "/html/div/p[1]/a" :=
  c4_amended ["/html/div", "/html/div/p[1]", "/html/span"] (by decide) "/html/div/p[1]/a"

theorem digit_toNat_range {c : Char} (h : isDigitCh c = true) :
    48 ≤ c.toNat ∧ c.toNat ≤ 57 := by
  have h0 : '0'.toNat = 48 := by decide
  have h9 : '9'.toNat = 57 := by decide
  simp only [isDigitCh, h0, h9, Bool.and_eq_true, decide_eq_true_eq] at h
  exact h

theorem digit_ne_amp {c : Char} (h : isDigitCh c = true) : c ≠ '&' := by
  intro rfl0
  subst rfl0
  exact absurd h (by decide)

theorem digit_not_xX {c : Char} (h : isDigitCh c = true) :
    (c == 'x' || c == 'X') = false := by
  rcases Bool.eq_false_or_eq_true (c == 'x' || c == 'X') with ht | hf
  · exfalso
    simp only [Bool.or_eq_true, beq_iff_eq] at ht
    rcases ht with rfl | rfl <;> exact absurd h (by decide)
  · exact hf

theorem digit_legal {c : Char} (h : isDigitCh c = true) :
    isIllegalXmlChar c = false := by
  obtain ⟨h1, h2⟩ := digit_toNat_range h
  simp only [isIllegalXmlChar, Bool.or_eq_false_iff, decide_eq_false_iff_not,
             Bool.and_eq_false_iff, beq_eq_false_iff_ne, ne_eq]
  omega

theorem subDec_nil : subDec [] = [] := by
  simp [subDec]

theorem subDec_other {c : Char} (l : List Char) (hc : c ≠ '&') :
    subDec (c :: l) = c :: subDec l := by
  conv_lhs => rw [subDec.eq_def]
  split
  · rename_i heq
    exact absurd heq (by simp)
  · rename_i heq
    exact absurd (List.cons.injEq .. ▸ heq) (by simp [hc])
  · rename_i heq
    rw [List.cons.injEq] at heq
    rw [heq.1, heq.2]

theorem subHex_nil : subHex [] = [] := by
  simp [subHex]

theorem subHex_other {c : Char} (l : List Char) (hc : c ≠ '&') :
    subHex (c :: l) = c :: subHex l := by
  conv_lhs => rw [subHex.eq_def]
  split
  · rename_i heq
    exact absurd heq (by simp)
  · rename_i heq
    exact absurd (List.cons.injEq .. ▸ heq) (by simp [hc])
  · rename_i heq
    rw [List.cons.injEq] at heq
    rw [heq.1, heq.2]

theorem natDecimal_ne_nil (n : Nat) : natDecimal n ≠ [] := by
  rw [natDecimal]
  split <;> simp

theorem digitChar_isDigit {k : Nat} (hk : k < 10) : isDigitCh (Nat.digitChar k) = true := by
  have hall : ∀ m : Nat, m < 10 → isDigitCh (Nat.digitChar m) = true := by decide
  exact hall k hk

theorem natDecimal_digits : ∀ n, ∀ c ∈ natDecimal n, isDigitCh c = true := by
  intro n
  induction n using Nat.strong_induction_on with
  | _ n ih =>
    rw [natDecimal]
    split
    · rename_i h
      intro c hc
      simp only [List.mem_singleton] at hc
      subst hc
      exact digitChar_isDigit h
    · rename_i h
      intro c hc
      rw [List.mem_append] at hc
      rcases hc with hc | hc
      · exact ih (n / 10) (Nat.div_lt_self (by omega) (by omega)) c hc
      · simp only [List.mem_singleton] at hc
        subst hc
        exact digitChar_isDigit (Nat.mod_lt _ (by omega))

theorem encodeAscii_nil : encodeAscii [] = [] := rfl

theorem encodeAscii_cons (c : Char) (l : List Char) :
    encodeAscii (c :: l) =
      (if c.toNat < 128 then [c] else '&' :: '#' :: (natDecimal c.toNat ++ [';'])) ++
        encodeAscii l := by
  simp [encodeAscii]

theorem ampRef_encodeAscii : ∀ (l : List Char), (∀ c ∈ l, c ≠ '&') → AmpRef (encodeAscii l) := by
  intro l
  induction l with
  | nil =>
    intro _
    rw [encodeAscii_nil]
    exact AmpRef.nil
  | cons c rest ih =>
    intro h
    rw [encodeAscii_cons]
    by_cases hc : c.toNat < 128
    · rw [if_pos hc]
      exact AmpRef.other (h c (List.mem_cons_self c rest))
        (ih (fun y hy => h y (List.mem_cons_of_mem c hy)))
    · rw [if_neg hc]
      have hshape : ('&' :: '#' :: (natDecimal c.toNat ++ [';'])) ++ encodeAscii rest =
          '&' :: '#' :: (natDecimal c.toNat ++ ';' :: encodeAscii rest) := by
        simp
      rw [hshape]
      exact AmpRef.ref (natDecimal_ne_nil _) (natDecimal_digits _)
        (ih (fun y hy => h y (List.mem_cons_of_mem c hy)))

theorem subDec_amp (rest : List Char) :
    subDec ('&' :: '#' :: rest) =
      if (rest.takeWhile isDigitCh).isEmpty then '&' :: subDec ('#' :: rest)
      else
        if (rest.dropWhile isDigitCh).head? == some ';' then
          strip_illegal_xml_characters (rest.takeWhile isDigitCh)
            ('&' :: '#' :: (rest.takeWhile isDigitCh ++ [';'])) 10 ++
            subDec (rest.dropWhile isDigitCh).tail
        else
          strip_illegal_xml_characters (rest.takeWhile isDigitCh)
            ('&' :: '#' :: rest.takeWhile isDigitCh) 10 ++
            subDec (rest.dropWhile isDigitCh) := by
  conv_lhs => rw [subDec.eq_def]
  rfl

theorem ampOk_subDec : ∀ {l : List Char}, AmpRef l → AmpOk (subDec l) := by
  intro l h
  induction h with
  | nil =>
    rw [subDec_nil]
    exact AmpOk.nil
  | other hc _ ih =>
    rename_i c l0 hrest
    rw [subDec_other _ hc]
    exact AmpOk.other hc ih
  | ref hne hdig _ ih =>
    rename_i ds l0 hrest
    rw [subDec_amp]
    have hsemi : isDigitCh ';' = false := by decide
    have htake : (ds ++ ';' :: l0).takeWhile isDigitCh = ds := by
      rw [List.takeWhile_append_of_pos hdig, List.takeWhile_cons, hsemi]
      simp
    have hdrop : (ds ++ ';' :: l0).dropWhile isDigitCh = ';' :: l0 := by
      rw [List.dropWhile_append_of_pos hdig, List.dropWhile_cons, hsemi]
      simp
    simp only [htake, hdrop]
    rw [if_neg (by simpa using hne)]
    rw [if_pos (by simp)]
    simp only [List.tail_cons]
    unfold strip_illegal_xml_characters
    by_cases hval : isInvalidCodepoint (parseDigitsBase 10 ds) = true
    · rw [if_pos hval]
      simpa using ih
    · rw [if_neg hval]
      have hshape : ('&' :: '#' :: (ds ++ [';'])) ++ subDec l0 =
          '&' :: '#' :: (ds ++ ';' :: subDec l0) := by simp
      rw [hshape]
      exact AmpOk.ref hne hdig (by simpa using hval) ih

theorem subHex_amp3 (m : Char) (rest : List Char) :
    subHex ('&' :: '#' :: m :: rest) =
      if (m == 'x' || m == 'X') = true then
        (if (rest.takeWhile isHexDigitCh).isEmpty then '&' :: subHex ('#' :: m :: rest)
         else if ((rest.dropWhile isHexDigitCh).head? == some ';') = true then
           strip_illegal_xml_characters (rest.takeWhile isHexDigitCh)
             ('&' :: '#' :: m :: (rest.takeWhile isHexDigitCh ++ [';'])) 16 ++
             subHex (rest.dropWhile isHexDigitCh).tail
         else
           strip_illegal_xml_characters (rest.takeWhile isHexDigitCh)
             ('&' :: '#' :: m :: rest.takeWhile isHexDigitCh) 16 ++
             subHex (rest.dropWhile isHexDigitCh))
      else '&' :: subHex ('#' :: m :: rest) := by
  conv_lhs => rw [subHex.eq_def]
  rfl

theorem subHex_nonx {m : Char} (rest : List Char) (hm : (m == 'x' || m == 'X') = false) :
    subHex ('&' :: '#' :: m :: rest) = '&' :: subHex ('#' :: m :: rest) := by
  rw [subHex_amp3, if_neg (by simp [hm])]

theorem subHex_skip : ∀ (m rest : List Char), (∀ c ∈ m, c ≠ '&') →
    subHex (m ++ rest) = m ++ subHex rest := by
  intro m
  induction m with
  | nil => intro rest _; simp
  | cons c m2 ih =>
    intro rest h
    rw [List.cons_append, subHex_other _ (h c (List.mem_cons_self c m2)),
        ih rest (fun y hy => h y (List.mem_cons_of_mem c hy))]
    rfl

theorem ampOk_subHex : ∀ {l : List Char}, AmpOk l → subHex l = l := by
  intro l h
  induction h with
  | nil => exact subHex_nil
  | other hc _ ih =>
    rw [subHex_other _ hc, ih]
  | ref hne hdig hval _ ih =>
    rename_i ds l0 hrest
    cases ds with
    | nil => exact absurd rfl hne
    | cons m ds2 =>
      have hm : isDigitCh m = true := hdig m (List.mem_cons_self m ds2)
      have hx : (m == 'x' || m == 'X') = false := digit_not_xX hm
      rw [List.cons_append, subHex_nonx _ hx,
          subHex_other _ (by decide : ('#' : Char) ≠ '&'),
          subHex_other _ (digit_ne_amp hm),
          subHex_skip ds2 (';' :: l0) (fun y hy => digit_ne_amp (hdig y (List.mem_cons_of_mem m hy))),
          subHex_other _ (by decide : (';' : Char) ≠ '&'), ih]

theorem hasInvalidRef_nil : hasInvalidRef [] = false := by
  simp [hasInvalidRef]

theorem hasInvalidRef_other {c : Char} (l : List Char) (hc : c ≠ '&') :
    hasInvalidRef (c :: l) = hasInvalidRef l := by
  conv_lhs => rw [hasInvalidRef.eq_def]
  split
  · rename_i heq
    exact absurd heq (by simp)
  · rename_i heq
    exact absurd (List.cons.injEq .. ▸ heq) (by simp [hc])
  · rename_i heq
    rw [List.cons.injEq] at heq
    rw [heq.2]

theorem hasInvalidRef_amp (rest : List Char) :
    hasInvalidRef ('&' :: '#' :: rest) =
      ((!(rest.takeWhile isDigitCh).isEmpty &&
        isInvalidCodepoint (parseDigitsBase 10 (rest.takeWhile isDigitCh))) ||
      (match rest with
       | m :: rest2 =>
         (m == 'x' || m == 'X') &&
         (!(rest2.takeWhile isHexDigitCh).isEmpty &&
          isInvalidCodepoint (parseDigitsBase 16 (rest2.takeWhile isHexDigitCh)))
       | [] => false) ||
      hasInvalidRef ('#' :: rest)) := by
  conv_lhs => rw [hasInvalidRef.eq_def]
  rfl

theorem hasInvalidRef_skip : ∀ (m rest : List Char), (∀ c ∈ m, c ≠ '&') →
    hasInvalidRef (m ++ rest) = hasInvalidRef rest := by
  intro m
  induction m with
  | nil => intro rest _; simp
  | cons c m2 ih =>
    intro rest h
    rw [List.cons_append, hasInvalidRef_other _ (h c (List.mem_cons_self c m2)),
        ih rest (fun y hy => h y (List.mem_cons_of_mem c hy))]

theorem ampOk_noInvalidRef : ∀ {l : List Char}, AmpOk l → hasInvalidRef l = false := by
  intro l h
  induction h with
  | nil => exact hasInvalidRef_nil
  | other hc _ ih =>
    rw [hasInvalidRef_other _ hc]
    exact ih
  | ref hne hdig hval _ ih =>
    rename_i ds l0 hrest
    rw [hasInvalidRef_amp]
    have hsemi : isDigitCh ';' = false := by decide
    have htake : (ds ++ ';' :: l0).takeWhile isDigitCh = ds := by
      rw [List.takeWhile_append_of_pos hdig, List.takeWhile_cons, hsemi]
      simp
    have hrec : hasInvalidRef ('#' :: (ds ++ ';' :: l0)) = false := by
      rw [hasInvalidRef_other _ (by decide : ('#' : Char) ≠ '&'),
          hasInvalidRef_skip ds (';' :: l0)
            (fun y hy => digit_ne_amp (hdig y hy)),
          hasInvalidRef_other _ (by decide : (';' : Char) ≠ '&')]
      exact ih
    rw [htake, hrec, hval]
    cases ds with
    | nil => exact absurd rfl hne
    | cons m ds2 =>
      have hx : (m == 'x' || m == 'X') = false := digit_not_xX (hdig m (List.mem_cons_self m ds2))
      simp [hx]

theorem ampOk_filter : ∀ {l : List Char}, AmpOk l →
    AmpOk (l.filter (fun c => !(isIllegalXmlChar c))) := by
  intro l h
  induction h with
  | nil =>
    simp only [List.filter_nil]
    exact AmpOk.nil
  | other hc _ ih =>
    rw [List.filter_cons]
    split
    · exact AmpOk.other hc ih
    · exact ih
  | ref hne hdig hval _ ih =>
    rename_i ds l0 hrest
    have hds : ds.filter (fun c => !(isIllegalXmlChar c)) = ds :=
      List.filter_eq_self.mpr (fun c hc => by rw [digit_legal (hdig c hc)]; rfl)
    rw [List.filter_cons_of_pos (by decide), List.filter_cons_of_pos (by decide),
        List.filter_append, hds, List.filter_cons_of_pos (by decide)]
    exact AmpOk.ref hne hdig hval ih

/-- C10 (amended): for every input, the string returned by
`remove_control_characters` contains no literal code point from the
invalid-XML set; and when the input contains no ampersand (so no
reference remnants can splice — see the counterexample), it also
contains no decimal or hexadecimal numeric character reference denoting
a code point in that set. -/
theorem c10_amended (s : String) :
    (∀ c ∈ (remove_control_characters s).toList, isIllegalXmlChar c = false) ∧
    ((∀ c ∈ s.toList, c ≠ '&') →
      hasInvalidRef (remove_control_characters s).toList = false) := by
  have hlist : (remove_control_characters s).toList =
      (subHex (subDec (encodeAscii s.toList))).filter (fun c => !(isIllegalXmlChar c)) := rfl
  constructor
  · intro c hc
    rw [hlist] at hc
    have hkeep := (List.mem_filter.mp hc).2
    simpa using hkeep
  · intro hamp
    rw [hlist]
    have h1 := ampRef_encodeAscii s.toList hamp
    have h2 := ampOk_subDec h1
    rw [ampOk_subHex h2]
    exact ampOk_noInvalidRef (ampOk_filter h2)

/-- Witness for C10 (amended) at a concrete ampersand-free input. -/
theorem c10_amended_witness :
    (∀ c ∈ (remove_control_characters "hi").toList, isIllegalXmlChar c = false) ∧
    hasInvalidRef (remove_control_characters "hi").toList = false :=
  ⟨(c10_amended "hi").1, (c10_amended "hi").2 (by decide)⟩
